import Mathlib

/-!
Verification development for the peasoup acceleration-search pipeline
(`src/pipeline_multi.cpp`).  The orchestrator in that file composes the
per-DM worker chain (FFT → spectrum forming → dereddening → optional
zapping → interpolated spectrum → statistics → inverse FFT, then per
acceleration: resample → FFT → interpolated spectrum → normalise →
harmonic summing → peak finding → distillation), a DM-index dispenser
shared by the worker threads, and the post-join distillation stages.

The component implementations (spectrum former, harmonic folder, stats,
distillers, peak finder) live in headers that are not part of this
repository snapshot; those are modelled from the specification, as marked
in their doc comments.  Device transforms whose behaviour the claims do
not depend on (the FFTs, the resampler, the dereddener median, the
zapper) are abstracted as function parameters of the worker environment.
-/

/-- A search candidate.  Mirrors the fields of the source `Candidate`
record used by the claims: frequency, signal-to-noise ratio, dispersion
measure, acceleration, harmonic index and DM trial index. -/
structure Candidate where
  freq : ℚ
  snr : ℚ
  dm : ℚ
  acc : ℚ
  harm : Nat
  dmTrialIdx : Nat
deriving DecidableEq, Repr

/-- Keep the strictly better of a candidate and an optional earlier best.
Helper for `firstMax`. -/
def pick (c : Candidate) : Option Candidate → Candidate
  | none => c
  | some b => if c.snr < b.snr then b else c

/-- First element of maximal `snr` in a list (earlier elements win ties).
Helper for the distiller model. -/
def firstMax : List Candidate → Option Candidate
  | [] => none
  | c :: cs => some (pick c (firstMax cs))

/-- Modelled from the spec: the candidates of `S` related to `c` by the
distiller relation `R` (the equivalence class of `c` inside `S` when `R`
is an equivalence). -/
def related (R : Candidate → Candidate → Bool) (S : List Candidate)
    (c : Candidate) : List Candidate :=
  S.filter (fun y => R c y)

/-- A candidate is kept by the distiller iff it is the first
highest-`snr` element of its own related set. -/
def kept (R : Candidate → Candidate → Bool) (S : List Candidate)
    (c : Candidate) : Bool :=
  decide (firstMax (related R S c) = some c)

/-- Modelled from the spec: `distill` keeps, from each class of related
candidates, the highest-SNR representative and discards the rest
(§4.10–4.12, data-model invariant 4).  The distiller implementations
(`HarmonicDistiller`, `AccelerationDistiller`, `DMDistiller`) are not in
the repository snapshot; only their call sites are. -/
def distill (R : Candidate → Candidate → Bool) (S : List Candidate) :
    List Candidate :=
  S.filter (kept R S)

/-- Modelled from the spec: the `HarmonicDistiller` relation (§4.10),
candidates whose frequencies are near an `n/m` harmonic ratio for
`1 ≤ n, m ≤ maxHarm`; with `fullKeys` set (the final pass) the DM and
acceleration are included as equivalence keys. -/
def harmRel (tol : ℚ) (maxHarm : Nat) (fullKeys : Bool)
    (a b : Candidate) : Bool :=
  ((List.range maxHarm).any (fun n => (List.range maxHarm).any (fun m =>
    decide (|b.freq - ((n : ℚ) + 1) * a.freq / ((m : ℚ) + 1)| / a.freq < tol))))
  && (!fullKeys || decide (a.dm = b.dm ∧ a.acc = b.acc))

/-- Modelled from the spec: the `AccelerationDistiller` relation (§4.11),
frequencies agree to `tol` and the DMs are equal. -/
def accelRel (tol : ℚ) (a b : Candidate) : Bool :=
  decide (|b.freq - a.freq| / a.freq < tol ∧ a.dm = b.dm)

/-- Modelled from the spec: the `DMDistiller` relation (§4.12),
frequencies agree to `tol`; acceleration is deliberately not compared. -/
def dmRel (tol : ℚ) (a b : Candidate) : Bool :=
  decide (|b.freq - a.freq| / a.freq < tol)

/-- The harmonic distiller used at line 244 (intra-DM, `fullKeys` false)
and line 480 (final pass, `fullKeys` true) of the source. -/
def harmDistill (tol : ℚ) (maxHarm : Nat) (fullKeys : Bool)
    (S : List Candidate) : List Candidate :=
  distill (harmRel tol maxHarm fullKeys) S

/-- The acceleration distiller used at line 248 of the source. -/
def accelDistill (tol : ℚ) (S : List Candidate) : List Candidate :=
  distill (accelRel tol) S

/-- The DM distiller used at line 478 of the source. -/
def dmDistill (tol : ℚ) (S : List Candidate) : List Candidate :=
  distill (dmRel tol) S

/-- A complex spectrum bin, as a pair of rational real and imaginary
parts. -/
abbrev Cbin := ℚ × ℚ

/-- Squared magnitude of a complex bin. -/
def binPower (z : Cbin) : ℚ := z.1 * z.1 + z.2 * z.2

/-- Modelled from the spec: `SpectrumFormer::form` (§4.3),
`P[k] = |z[k]|²`.  The spectrum former implementation is not in the
repository snapshot. -/
def form (z : List Cbin) : List ℚ := z.map binPower

/-- Modelled from the spec: `SpectrumFormer::form_interpolated` (§3,
§4.3), bin `k = max(|z_k|², ½(|z_k|² + |z_{k+1}|²))`; the last bin has
no successor and keeps its plain power. -/
def formInterpolated (z : List Cbin) : List ℚ :=
  (List.range z.length).map (fun k =>
    if k + 1 < z.length then
      max (binPower (z.getD k (0, 0)))
        ((binPower (z.getD k (0, 0)) + binPower (z.getD (k + 1) (0, 0))) / 2)
    else binPower (z.getD k (0, 0)))

/-- Modelled from the spec: `stats::mean` (§4.1), the arithmetic mean. -/
def listMean (l : List ℚ) : ℚ := l.sum / l.length

/-- Modelled from the spec: `stats::stats` standard deviation (§4.1);
the square root has no exact rational value, so it is abstracted as a
caller-supplied function applied to the mean squared deviation. -/
def listStd (sqrtFn : ℚ → ℚ) (l : List ℚ) : ℚ :=
  sqrtFn (listMean (l.map (fun x => (x - listMean l) ^ 2)))

/-- Modelled from the spec: `stats::normalise` (§4.1), subtract the
pre-scaled mean and divide by the pre-scaled deviation, element-wise. -/
def normalise (l : List ℚ) (muS sigmaS : ℚ) : List ℚ :=
  l.map (fun x => (x - muS) / sigmaS)

/-- Round `a / b` to the nearest natural (ties round up). -/
def natRound (a b : Nat) : Nat := (2 * a + b) / (2 * b)

/-- Modelled from the spec: `HarmonicFolder::fold` for a single stretch
factor `f` (§4.7): `sum_f[k] = Σ_{j=0..f-1} P[round(k·j/f)]`. -/
def harmonicSum (f : Nat) (P : List ℚ) : List ℚ :=
  (List.range P.length).map (fun k =>
    ((List.range f).map (fun j => P.getD (natRound (k * j) f) 0)).sum)

/-- Modelled from the spec: the `HarmonicSums` sequence (§3): sums for
`h = 0..H-1` with stretch factor `2^(h+1)`. -/
def harmonicSums (H : Nat) (P : List ℚ) : List (List ℚ) :=
  (List.range H).map (fun h => harmonicSum (2 ^ (h + 1)) P)

/-- Modelled from the spec: the `PeakFinder` bin predicate (§4.8): value
at least the threshold and a left-biased local maximum. -/
def isPeak (minSnr : ℚ) (P : List ℚ) (k : Nat) : Bool :=
  decide (minSnr ≤ P.getD k 0 ∧ P.getD (k - 1) 0 ≤ P.getD k 0 ∧
    (k + 1 < P.length → P.getD (k + 1) 0 ≤ P.getD k 0))

/-- Modelled from the spec: `PeakFinder::find_candidates` on one
spectrum (§4.8).  Every produced candidate carries the `SpectrumCandidates`
tags: the trial DM `dm`, the DM trial index `idx` and the trial
acceleration `acc` (source lines 236–240); the reported frequency is
`k·bin_width/stretch` with `stretch = 2^(h+1)` on harmonic sum `h`. -/
def findCands (minSnr fmin fmax binW : ℚ) (stretch : Nat) (P : List ℚ)
    (dm : ℚ) (idx : Nat) (acc : ℚ) (hIdx : Nat) : List Candidate :=
  ((List.range P.length).filter (fun (k : Nat) =>
    isPeak minSnr P k &&
      decide (fmin ≤ (k : ℚ) * binW / (stretch : ℚ) ∧
        (k : ℚ) * binW / (stretch : ℚ) ≤ fmax))).map
    (fun (k : Nat) =>
      ⟨(k : ℚ) * binW / (stretch : ℚ), P.getD k 0, dm, acc, hIdx, idx⟩)

/-- Peak finding over the normalised spectrum and all harmonic sums into
one `SpectrumCandidates` collection (source lines 236–240). -/
def findAllCands (minSnr fmin fmax binW : ℚ) (pn : List ℚ)
    (sums : List (List ℚ)) (dm : ℚ) (idx : Nat) (acc : ℚ) :
    List Candidate :=
  findCands minSnr fmin fmax binW 1 pn dm idx acc 0 ++
    ((List.range sums.length).map (fun h =>
      findCands minSnr fmin fmax binW (2 ^ (h + 1)) (sums.getD h [])
        dm idx acc (h + 1))).flatten

/-- Write a list into a fixed-size device buffer of length `n`: entry
`i` is the source entry when present and the fill value `d` otherwise.
Models the reuse of fixed-size on-device arrays. -/
def fit (n : Nat) (d : α) (l : List α) : List α :=
  (List.range n).map (fun i => l.getD i d)

/-- The per-worker environment: the sizes and thresholds taken from the
command-line options (source lines 31–56 and the `Worker` constructor),
together with the device transforms the worker builds at lines 132–151
(FFTs, resampler, dereddener, zapper) and the acceleration plan, which
are abstracted as functions because their implementations are external
to this file of the repository. -/
structure Env where
  size : Nat
  nsamps : Nat
  tsamp : ℚ
  nharm : Nat
  minSnr : ℚ
  minFreq : ℚ
  maxFreq : ℚ
  freqTol : ℚ
  maxHarm : Nat
  zapEmpty : Bool
  r2c : List ℚ → List Cbin
  c2r : List Cbin → List ℚ
  resample : List ℚ → ℚ → List ℚ
  deredden : List ℚ → List Cbin → List Cbin
  zap : List Cbin → List Cbin
  sqrtFn : ℚ → ℚ
  accList : ℚ → List ℚ

/-- Fourier bin width, `1/(S·tsamp)` (source line 135). -/
def binWidth (e : Env) : ℚ := 1 / ((e.size : ℚ) * e.tsamp)

/-- The device time series for one DM trial: the host samples copied to
the `size`-long device buffer, and, when `size > nsamps`, indices
`[nsamps, size)` filled with the mean of the first `nsamps` entries
(source lines 128–131 and 168–173). -/
def deviceBuffer (e : Env) (tim : List ℚ) : List ℚ :=
  let b0 := (List.range e.size).map (fun i => tim.getD i 0)
  if e.nsamps < e.size then
    b0.take e.nsamps ++
      List.replicate (e.size - e.nsamps) (listMean (b0.take e.nsamps))
  else b0

/-- The dereddening stage without the zapper: forward FFT of the device
buffer, power spectrum, running-median dereddening (source lines
181–193). -/
def dereddenOnly (e : Env) (tim : List ℚ) : List Cbin :=
  let fser1 := fit (e.size / 2 + 1) (0, 0) (e.r2c (deviceBuffer e tim))
  fit (e.size / 2 + 1) (0, 0) (e.deredden (form fser1) fser1)

/-- The complex spectrum after dereddening and, when a zap file is
configured, birdie zapping (source lines 181–199). -/
def dereddenedSpectrum (e : Env) (tim : List ℚ) : List Cbin :=
  if e.zapEmpty then dereddenOnly e tim
  else fit (e.size / 2 + 1) (0, 0) (e.zap (dereddenOnly e tim))

/-- The interpolated power spectrum formed from the dereddened complex
spectrum (source line 203), the input of the per-DM statistics. -/
def interpSpec (e : Env) (tim : List ℚ) : List ℚ :=
  formInterpolated (dereddenedSpectrum e tim)

/-- Mean of the dereddened interpolated spectrum (source line 207). -/
def dmMean (e : Env) (tim : List ℚ) : ℚ := listMean (interpSpec e tim)

/-- Standard deviation of the dereddened interpolated spectrum (source
line 207). -/
def dmStd (e : Env) (tim : List ℚ) : ℚ := listStd e.sqrtFn (interpSpec e tim)

/-- The cleaned time series: inverse FFT of the dereddened spectrum into
the reused device buffer (source line 211). -/
def cleanSeries (e : Env) (tim : List ℚ) : List ℚ :=
  fit e.size 0 (e.c2r (dereddenedSpectrum e tim))

/-- The complex spectrum of one acceleration trial: resample the clean
series to acceleration `a`, forward FFT (source lines 217–222). -/
def accFser (e : Env) (clean : List ℚ) (a : ℚ) : List Cbin :=
  fit (e.size / 2 + 1) (0, 0) (e.r2c (fit e.size 0 (e.resample clean a)))

/-- The interpolated power spectrum of one acceleration trial (source
line 226). -/
def accSpec (e : Env) (clean : List ℚ) (a : ℚ) : List ℚ :=
  formInterpolated (accFser e clean a)

/-- The normalised power spectrum of one acceleration trial: normalised
in place with the pre-scaled per-DM statistics `mean·S` and `std·S`
(source line 230). -/
def accNormSpec (e : Env) (clean : List ℚ) (mu sigma a : ℚ) : List ℚ :=
  normalise (accSpec e clean a) (mu * (e.size : ℚ)) (sigma * (e.size : ℚ))

/-- The harmonic sums of one acceleration trial (source line 234),
computed from the normalised interpolated spectrum. -/
def accSums (e : Env) (clean : List ℚ) (mu sigma a : ℚ) : List (List ℚ) :=
  harmonicSums e.nharm (accNormSpec e clean mu sigma a)

/-- The candidates of one acceleration trial: peaks of the normalised
spectrum and of every harmonic sum, harmonically distilled within the
trial (source lines 236–244). -/
def accStepCands (e : Env) (dm : ℚ) (ii : Nat) (clean : List ℚ)
    (mu sigma a : ℚ) : List Candidate :=
  harmDistill e.freqTol e.maxHarm false
    (findAllCands e.minSnr e.minFreq e.maxFreq (binWidth e)
      (accNormSpec e clean mu sigma a) (accSums e clean mu sigma a) dm ii a)

/-- One iteration of the worker loop (source lines 160–248): process DM
trial `ii`, returning the acceleration-distilled candidates appended to
the worker's collection. -/
def processDM (e : Env) (dm : ℚ) (tim : List ℚ) (ii : Nat) :
    List Candidate :=
  accelDistill e.freqTol
    (((e.accList dm).map (fun a =>
      accStepCands e dm ii (cleanSeries e tim) (dmMean e tim) (dmStd e tim)
        a)).flatten)

/-- The aggregate of the whole run: every DM trial processed exactly
once (the dispenser hands each index out once), the workers' collections
appended after join, then DM distillation and the final harmonic
distillation (source lines 460–480). -/
def runPipeline (e : Env) (trials : List (ℚ × List ℚ)) : List Candidate :=
  harmDistill e.freqTol e.maxHarm true
    (dmDistill e.freqTol
      (((List.range trials.length).map (fun ii =>
        processDM e (trials.getD ii (0, [])).1 (trials.getD ii (0, [])).2
          ii)).flatten))

/-- The `DMDispenser` state: the total trial count and the cursor
`dm_idx`, initially 0 (source lines 58–72).  The progress bar is
observability only and is omitted. -/
structure Dispenser where
  count : Nat
  dmIdx : Nat

/-- `DMDispenser::get_dm_trial_idx` (source lines 79–99): under the
mutex, return −1 when the cursor has reached the count, else return the
cursor and post-increment.  The mutex serializes the calls, so one call
is one atomic state transition. -/
def getDMTrialIdx (d : Dispenser) : Int × Dispenser :=
  if d.count ≤ d.dmIdx then (-1, d)
  else ((d.dmIdx : Int), { d with dmIdx := d.dmIdx + 1 })

/-- The sequence of values returned by `m` consecutive (serialized)
calls to the dispenser. -/
def runDispenser (d : Dispenser) : Nat → List Int
  | 0 => []
  | m + 1 =>
    (getDMTrialIdx d).1 :: runDispenser (getDMTrialIdx d).2 m

/-- The constructor arguments of the worker's `AccelerationDistiller`
(source line 155): observation time, frequency tolerance and the flag. -/
structure AccStillArgs where
  tobs : ℚ
  tol : ℚ
  flag : Bool

/-- The observation time the worker computes at source line 134:
`tobs = size * tsamp`, the padded transform length times the sample
interval. -/
def workerTobs (e : Env) : ℚ := (e.size : ℚ) * e.tsamp

/-- The acceleration distiller each worker constructs (source line
155): `AccelerationDistiller acc_still(tobs, args.freq_tol, true)`. -/
def workerAccStillArgs (e : Env) : AccStillArgs :=
  ⟨workerTobs e, e.freqTol, true⟩

/-- Events on the worker's `bzap` pointer. -/
inductive ZapEvent
  | init
  | deref
  | del
deriving DecidableEq, Repr

/-- The `bzap` pointer events of one `Worker::start` execution
processing `numDM` trials: `new Zapper` under the zap-file guard (source
lines 143–147), one `bzap->zap(...)` per DM trial under the same guard
(lines 195–199), and `delete bzap` under the same guard (lines
251–252).  `zapEmpty` is true iff `args.zapfilename` is empty. -/
def zapEvents (zapEmpty : Bool) (numDM : Nat) : List ZapEvent :=
  (if zapEmpty then [] else [ZapEvent.init]) ++
    (List.replicate numDM
      (if zapEmpty then [] else [ZapEvent.deref])).flatten ++
    (if zapEmpty then [] else [ZapEvent.del])

/-- Modelled from the spec: `Utils::prev_power_of_two`, the previous
power of two less than or equal to its argument (§6 and glossary); the
implementation is not in the repository snapshot. -/
def prevPowerOfTwo (n : Nat) : Nat := 2 ^ Nat.log 2 n

/-- The transform-length selection of `main` (source lines 441–446):
a configured size of 0 selects the previous power of two of the sample
count, any other value is used as given. -/
def chooseSize (argSize nsamps : Nat) : Nat :=
  if argSize = 0 then prevPowerOfTwo nsamps else argSize


/-- Concrete worker environment used in witnesses and in the
harmonic-sum counterexample: transform size 4, four input samples, one
harmonic sum, with concrete stand-ins for the abstract device
transforms. -/
def envA : Env where
  size := 4
  nsamps := 4
  tsamp := 1
  nharm := 1
  minSnr := -10
  minFreq := 0
  maxFreq := 10
  freqTol := 1
  maxHarm := 1
  zapEmpty := true
  r2c := fun _ => [(1, 0), (2, 0), (0, 0)]
  c2r := fun _ => [0, 0, 0, 0]
  resample := fun t _ => t
  deredden := fun _ f => f
  zap := id
  sqrtFn := id
  accList := fun _ => [0]

/-- The single-DM-trial set used with `envA`: one trial at DM 5. -/
def trialsA : List (ℚ × List ℚ) := [(5, [1, 1, 1, 1])]

/-- The fundamental-spectrum candidate the pipeline finds on `envA` and
`trialsA`. -/
def candA : Candidate := ⟨1/4, -3/7, 5, 0, 0, 0⟩

/-- Concrete environment with `size > nsamps`, exercising the padding
branch. -/
def envPad : Env where
  size := 4
  nsamps := 2
  tsamp := 1
  nharm := 0
  minSnr := 0
  minFreq := 0
  maxFreq := 0
  freqTol := 1
  maxHarm := 1
  zapEmpty := true
  r2c := fun _ => []
  c2r := fun _ => []
  resample := fun t _ => t
  deredden := fun _ f => f
  zap := id
  sqrtFn := id
  accList := fun _ => []

/-- Concrete environment whose zapper would corrupt the spectrum if it
were ever applied; its zap-file option is empty. -/
def envZap : Env where
  size := 2
  nsamps := 2
  tsamp := 1
  nharm := 0
  minSnr := 0
  minFreq := 0
  maxFreq := 0
  freqTol := 1
  maxHarm := 1
  zapEmpty := true
  r2c := fun _ => [(1, 0), (1, 0)]
  c2r := fun _ => [0, 0]
  resample := fun t _ => t
  deredden := fun _ f => f
  zap := fun _ => [(9, 9), (9, 9)]
  sqrtFn := id
  accList := fun _ => []

/-- Lowest candidate of a frequency chain on which the tolerance
relations fail to be transitive: frequency 4, SNR 1. -/
def ca : Candidate := ⟨4, 1, 0, 0, 0, 0⟩

/-- Middle candidate of the chain: frequency 5, SNR 2; related to both
ends at tolerance 3/10. -/
def cb : Candidate := ⟨5, 2, 0, 0, 0, 0⟩

/-- Top candidate of the chain: frequency 6, SNR 3; unrelated to `ca`
at tolerance 3/10. -/
def cc : Candidate := ⟨6, 3, 0, 0, 0, 0⟩

/-- The three-candidate chain used for the distiller counterexample and
witnesses. -/
def chainS : List Candidate := [ca, cb, cc]


lemma pick_none (c : Candidate) : pick c none = c := rfl

lemma pick_some (c b : Candidate) :
    pick c (some b) = if c.snr < b.snr then b else c := rfl

lemma firstMax_cons (c : Candidate) (cs : List Candidate) :
    firstMax (c :: cs) = some (pick c (firstMax cs)) := rfl

lemma firstMax_eq_none {l : List Candidate} :
    firstMax l = none ↔ l = [] := by
  cases l with
  | nil => simp [firstMax]
  | cons c cs => simp [firstMax_cons]

lemma firstMax_mem (l : List Candidate) :
    ∀ x, firstMax l = some x → x ∈ l := by
  induction l with
  | nil => intro x h; exact Option.noConfusion h
  | cons c cs ih =>
    intro x h
    rw [firstMax_cons, Option.some.injEq] at h
    cases hcs : firstMax cs with
    | none =>
      rw [hcs, pick_none] at h
      subst h
      exact List.mem_cons_self c cs
    | some b =>
      rw [hcs, pick_some] at h
      by_cases hlt : c.snr < b.snr
      · rw [if_pos hlt] at h
        subst h
        exact List.mem_cons_of_mem c (ih b hcs)
      · rw [if_neg hlt] at h
        subst h
        exact List.mem_cons_self c cs

lemma firstMax_le (l : List Candidate) :
    ∀ x, firstMax l = some x → ∀ y ∈ l, y.snr ≤ x.snr := by
  induction l with
  | nil => intro x h; exact Option.noConfusion h
  | cons c cs ih =>
    intro x h y hy
    rw [firstMax_cons, Option.some.injEq] at h
    cases hcs : firstMax cs with
    | none =>
      rw [hcs, pick_none] at h
      subst h
      rcases List.mem_cons.mp hy with rfl | hy2
      · exact le_refl _
      · rw [firstMax_eq_none.mp hcs] at hy2
        exact absurd hy2 (List.not_mem_nil y)
    | some b =>
      rw [hcs, pick_some] at h
      by_cases hlt : c.snr < b.snr
      · rw [if_pos hlt] at h
        subst h
        rcases List.mem_cons.mp hy with rfl | hy2
        · exact le_of_lt hlt
        · exact ih b hcs y hy2
      · rw [if_neg hlt] at h
        subst h
        rcases List.mem_cons.mp hy with rfl | hy2
        · exact le_refl _
        · exact le_trans (ih b hcs y hy2) (le_of_not_lt hlt)

lemma firstMax_decomp (l : List Candidate) :
    ∀ x, firstMax l = some x →
      ∃ l₁ l₂, l = l₁ ++ x :: l₂ ∧ ∀ y ∈ l₁, y.snr < x.snr := by
  induction l with
  | nil => intro x h; exact Option.noConfusion h
  | cons c cs ih =>
    intro x h
    rw [firstMax_cons, Option.some.injEq] at h
    cases hcs : firstMax cs with
    | none =>
      rw [hcs, pick_none] at h
      subst h
      exact ⟨[], cs, rfl, by simp⟩
    | some b =>
      rw [hcs, pick_some] at h
      by_cases hlt : c.snr < b.snr
      · rw [if_pos hlt] at h
        subst h
        obtain ⟨l₁, l₂, heq, hstrict⟩ := ih b hcs
        refine ⟨c :: l₁, l₂, by rw [heq, List.cons_append], ?_⟩
        intro y hy
        rcases List.mem_cons.mp hy with rfl | hy2
        · exact hlt
        · exact hstrict y hy2
      · rw [if_neg hlt] at h
        subst h
        exact ⟨[], cs, rfl, by simp⟩

lemma firstMax_of_decomp (l₂ : List Candidate) (x : Candidate)
    (h2 : ∀ y ∈ l₂, y.snr ≤ x.snr) :
    ∀ l₁, (∀ y ∈ l₁, y.snr < x.snr) →
      firstMax (l₁ ++ x :: l₂) = some x := by
  intro l₁
  induction l₁ with
  | nil =>
    intro _
    rw [List.nil_append, firstMax_cons]
    cases hcs : firstMax l₂ with
    | none => rw [pick_none]
    | some b =>
      have hble : b.snr ≤ x.snr := h2 b (firstMax_mem l₂ b hcs)
      rw [pick_some, if_neg (not_lt.mpr hble)]
  | cons a l₁ ih =>
    intro h1
    have ha : a.snr < x.snr := h1 a (List.mem_cons_self a l₁)
    have hrest := ih (fun y hy => h1 y (List.mem_cons_of_mem a hy))
    rw [List.cons_append, firstMax_cons, hrest, pick_some, if_pos ha]

lemma distill_subset (R : Candidate → Candidate → Bool)
    (S : List Candidate) : distill R S ⊆ S :=
  fun _ h => (List.mem_filter.mp h).1

lemma distill_length_le (R : Candidate → Candidate → Bool)
    (S : List Candidate) : (distill R S).length ≤ S.length :=
  List.length_filter_le _ _

lemma related_distill (R : Candidate → Candidate → Bool)
    (S : List Candidate) (c : Candidate) :
    related R (distill R S) c = (related R S c).filter (kept R S) := by
  simp only [related, distill]
  rw [List.filter_filter, List.filter_filter]
  exact List.filter_congr (fun a _ => Bool.and_comm _ _)

lemma distill_idem (R : Candidate → Candidate → Bool)
    (S : List Candidate) : distill R (distill R S) = distill R S := by
  have hall : ∀ c ∈ distill R S, kept R (distill R S) c = true := by
    intro c hc
    obtain ⟨hcS, hkc⟩ := List.mem_filter.mp hc
    have hfm : firstMax (related R S c) = some c := by
      simpa [kept] using hkc
    obtain ⟨l₁, l₂, hdec, hstrict⟩ := firstMax_decomp _ _ hfm
    have hle := firstMax_le _ _ hfm
    have hsplit : related R (distill R S) c =
        l₁.filter (kept R S) ++ c :: l₂.filter (kept R S) := by
      rw [related_distill, hdec, List.filter_append, List.filter_cons,
        if_pos hkc]
    simp only [kept, hsplit, decide_eq_true_eq]
    apply firstMax_of_decomp
    · intro y hy
      refine hle y ?_
      rw [hdec]
      exact List.mem_append_right _ (List.mem_cons_of_mem _
        (List.mem_of_mem_filter hy))
    · intro y hy
      exact hstrict y (List.mem_of_mem_filter hy)
  calc distill R (distill R S)
      = (distill R S).filter (kept R (distill R S)) := rfl
    _ = distill R S := List.filter_eq_self.mpr hall

lemma distill_kept_best (R : Candidate → Candidate → Bool)
    (S : List Candidate) :
    ∀ c ∈ distill R S, ∀ y ∈ related R S c, y.snr ≤ c.snr := by
  intro c hc y hy
  have hk := (List.mem_filter.mp hc).2
  simp only [kept, decide_eq_true_eq] at hk
  exact firstMax_le _ _ hk y hy

lemma firstMax_mem_distill (R : Candidate → Candidate → Bool)
    (S : List Candidate) :
    ∀ m, (∀ a, R a a = true) → firstMax S = some m →
      m ∈ distill R S := by
  intro m hrefl hfm
  obtain ⟨l₁, l₂, hdec, hstrict⟩ := firstMax_decomp S m hfm
  have hle := firstMax_le S m hfm
  have hrel : related R S m = l₁.filter (fun y => R m y) ++
      m :: l₂.filter (fun y => R m y) := by
    rw [related, hdec, List.filter_append, List.filter_cons,
      if_pos (hrefl m)]
  refine List.mem_filter.mpr ⟨firstMax_mem S m hfm, ?_⟩
  simp only [kept, hrel, decide_eq_true_eq]
  apply firstMax_of_decomp
  · intro y hy
    refine hle y ?_
    rw [hdec]
    exact List.mem_append_right _ (List.mem_cons_of_mem _
      (List.mem_of_mem_filter hy))
  · intro y hy
    exact hstrict y (List.mem_of_mem_filter hy)

lemma dmRel_refl (tol : ℚ) (h : 0 < tol) :
    ∀ a, dmRel tol a a = true := by
  intro a
  simp only [dmRel, sub_self, abs_zero, zero_div, decide_eq_true_eq]
  exact h

lemma accelRel_refl (tol : ℚ) (h : 0 < tol) :
    ∀ a, accelRel tol a a = true := by
  intro a
  simp only [accelRel, sub_self, abs_zero, zero_div, decide_eq_true_eq]
  exact ⟨h, trivial⟩

lemma harmRel_refl (tol : ℚ) (mh : Nat) (full : Bool) (h : 0 < tol)
    (hm : 1 ≤ mh) : ∀ a, harmRel tol mh full a a = true := by
  intro a
  simp only [harmRel, Bool.and_eq_true]
  constructor
  · rw [List.any_eq_true]
    refine ⟨0, List.mem_range.mpr hm, ?_⟩
    rw [List.any_eq_true]
    refine ⟨0, List.mem_range.mpr hm, ?_⟩
    simpa using h
  · cases full <;> simp

lemma getD_range_map {α : Type} (f : Nat → α) (d : α) {n k : Nat}
    (h : k < n) : ((List.range n).map f).getD k d = f k := by
  rw [List.getD_eq_getElem?_getD, List.getElem?_map, List.getElem?_range h]
  rfl

lemma fit_length {α : Type} (n : Nat) (d : α) (l : List α) :
    (fit n d l).length = n := by
  simp [fit]

lemma formInterpolated_length (z : List Cbin) :
    (formInterpolated z).length = z.length := by
  simp [formInterpolated]

lemma dereddenOnly_length (e : Env) (tim : List ℚ) :
    (dereddenOnly e tim).length = e.size / 2 + 1 := by
  unfold dereddenOnly
  exact fit_length _ _ _

lemma dereddenedSpectrum_length (e : Env) (tim : List ℚ) :
    (dereddenedSpectrum e tim).length = e.size / 2 + 1 := by
  unfold dereddenedSpectrum
  cases h : e.zapEmpty
  · rw [if_neg (by simp [h])]
    exact fit_length _ _ _
  · rw [if_pos rfl]
    exact dereddenOnly_length e tim

lemma interpSpec_length (e : Env) (tim : List ℚ) :
    (interpSpec e tim).length = e.size / 2 + 1 := by
  rw [interpSpec, formInterpolated_length, dereddenedSpectrum_length]

lemma flatten_replicate_nil {α : Type} (n : Nat) :
    (List.replicate n ([] : List α)).flatten = [] := by
  induction n with
  | zero => rfl
  | succ m ih => simp [List.replicate_succ, ih]

lemma flatten_replicate_single {α : Type} (x : α) (n : Nat) :
    (List.replicate n [x]).flatten = List.replicate n x := by
  induction n with
  | zero => rfl
  | succ m ih => simp [List.replicate_succ, ih]

lemma findCands_tags {ms f1 f2 bw dm acc : ℚ} {st idx hIdx : Nat}
    {P : List ℚ} :
    ∀ c ∈ findCands ms f1 f2 bw st P dm idx acc hIdx,
      c.dm = dm ∧ c.dmTrialIdx = idx ∧ c.acc = acc := by
  intro c hc
  obtain ⟨k, _, rfl⟩ := List.mem_map.mp hc
  exact ⟨rfl, rfl, rfl⟩

lemma findAllCands_tags {ms f1 f2 bw dm acc : ℚ} {idx : Nat}
    {pn : List ℚ} {sums : List (List ℚ)} :
    ∀ c ∈ findAllCands ms f1 f2 bw pn sums dm idx acc,
      c.dm = dm ∧ c.dmTrialIdx = idx ∧ c.acc = acc := by
  intro c hc
  rcases List.mem_append.mp hc with h | h
  · exact findCands_tags c h
  · obtain ⟨l, hl, hcl⟩ := List.mem_flatten.mp h
    obtain ⟨hh, _, rfl⟩ := List.mem_map.mp hl
    exact findCands_tags c hcl

lemma accStepCands_tags {e : Env} {dm : ℚ} {ii : Nat} {clean : List ℚ}
    {mu sigma a : ℚ} :
    ∀ c ∈ accStepCands e dm ii clean mu sigma a,
      c.dm = dm ∧ c.dmTrialIdx = ii ∧ c.acc = a := by
  intro c hc
  exact findAllCands_tags c (distill_subset _ _ hc)

lemma processDM_tags {e : Env} {dm : ℚ} {tim : List ℚ} {ii : Nat} :
    ∀ c ∈ processDM e dm tim ii, c.dm = dm ∧ c.dmTrialIdx = ii := by
  intro c hc
  obtain ⟨l, hl, hcl⟩ := List.mem_flatten.mp (distill_subset _ _ hc)
  obtain ⟨a, _, rfl⟩ := List.mem_map.mp hl
  obtain ⟨h1, h2, _⟩ := accStepCands_tags c hcl
  exact ⟨h1, h2⟩

lemma runDispenser_spec :
    ∀ (m N i : Nat), N - i ≤ m →
      runDispenser ⟨N, i⟩ m =
        (List.range' i (N - i)).map (fun k => (k : Int)) ++
          List.replicate (m - (N - i)) (-1) := by
  intro m
  induction m with
  | zero =>
    intro N i h
    rw [Nat.le_zero.mp h]
    rfl
  | succ m ih =>
    intro N i h
    by_cases hge : N ≤ i
    · have h0 : N - i = 0 := Nat.sub_eq_zero_of_le hge
      have hstep : getDMTrialIdx ⟨N, i⟩ = (-1, ⟨N, i⟩) := by
        simp [getDMTrialIdx, hge]
      rw [h0]
      simp only [runDispenser, hstep]
      rw [ih N i (by omega)]
      rw [h0]
      simp [List.replicate_succ]
    · have hstep : getDMTrialIdx ⟨N, i⟩ = ((i : Int), ⟨N, i + 1⟩) := by
        simp [getDMTrialIdx, hge]
      simp only [runDispenser, hstep]
      rw [ih N (i + 1) (by omega)]
      have h1 : N - i = (N - (i + 1)) + 1 := by omega
      have h2 : (m + 1) - (N - i) = m - (N - (i + 1)) := by omega
      rw [h2, h1, List.range'_succ]
      simp

/-- Claim C1, counterexample: on a concrete worker run the harmonic sums
computed for an acceleration trial (source line 234) are not the
harmonic sums of the plain power spectrum `P[k] = |z[k]|²` of that
trial's Fourier series: the spectrum that is summed is the interpolated,
normalised one. -/
theorem harmonic_sums_not_of_plain_spectrum :
    accSums envA (cleanSeries envA [1, 1, 1, 1]) (dmMean envA [1, 1, 1, 1])
        (dmStd envA [1, 1, 1, 1]) 0 ≠
      harmonicSums envA.nharm
        (form (accFser envA (cleanSeries envA [1, 1, 1, 1]) 0)) := by
  with_unfolding_all decide

/-- Claim C1, amended: for every acceleration trial, harmonic sum `h`
(for `h = 0..H-1`, factor `f = 2^(h+1)`) is the `f`-fold incoherent
harmonic sum of the NORMALISED INTERPOLATED power spectrum of that
trial, with bin `k` of sum `h` equal to the sum over `j = 0..f-1` of
`P[round(k·j/f)]` using nearest-bin stretching, where `P` is the
normalised interpolated spectrum. -/
theorem harmonic_sums_formula :
    ∀ (e : Env) (clean : List ℚ) (mu sigma a : ℚ) (h k : Nat),
      h < e.nharm → k < (accNormSpec e clean mu sigma a).length →
      accSums e clean mu sigma a =
        harmonicSums e.nharm
          (normalise (accSpec e clean a) (mu * (e.size : ℚ))
            (sigma * (e.size : ℚ))) ∧
      (accSums e clean mu sigma a).getD h [] =
        harmonicSum (2 ^ (h + 1)) (accNormSpec e clean mu sigma a) ∧
      ((accSums e clean mu sigma a).getD h []).getD k 0 =
        ((List.range (2 ^ (h + 1))).map (fun j =>
          (accNormSpec e clean mu sigma a).getD
            (natRound (k * j) (2 ^ (h + 1))) 0)).sum := by
  intro e clean mu sigma a h k hh hk
  refine ⟨rfl, ?_, ?_⟩
  · exact getD_range_map _ _ hh
  · have h1 : (accSums e clean mu sigma a).getD h [] =
        harmonicSum (2 ^ (h + 1)) (accNormSpec e clean mu sigma a) :=
      getD_range_map _ _ hh
    rw [h1]
    exact getD_range_map _ _ hk

/-- Witness for the amended C1 theorem at the concrete environment. -/
theorem harmonic_sums_formula_witness :
    accSums envA (cleanSeries envA [1, 1, 1, 1]) (dmMean envA [1, 1, 1, 1])
        (dmStd envA [1, 1, 1, 1]) 0 =
      harmonicSums envA.nharm
        (normalise (accSpec envA (cleanSeries envA [1, 1, 1, 1]) 0)
          (dmMean envA [1, 1, 1, 1] * (envA.size : ℚ))
          (dmStd envA [1, 1, 1, 1] * (envA.size : ℚ))) :=
  (harmonic_sums_formula envA (cleanSeries envA [1, 1, 1, 1])
    (dmMean envA [1, 1, 1, 1]) (dmStd envA [1, 1, 1, 1]) 0 0 0
    (by decide) (by decide)).1

/-- Claim C2: for every trial count `N`, serialized calls to the
dispenser (its mutex serializes them) return exactly `0, 1, …, N-1` and
then the sentinel −1 for every further call; once the cursor has
reached `N` every call returns −1 and leaves the state unchanged. -/
theorem dispenser_fairness :
    ∀ (N m : Nat), N ≤ m →
      runDispenser ⟨N, 0⟩ m =
        (List.range N).map (fun k => (k : Int)) ++
          List.replicate (m - N) (-1) ∧
      ∀ j, N ≤ j →
        (getDMTrialIdx ⟨N, j⟩).1 = -1 ∧ (getDMTrialIdx ⟨N, j⟩).2 = ⟨N, j⟩ := by
  intro N m hNm
  constructor
  · have h := runDispenser_spec m N 0 (by omega)
    rw [Nat.sub_zero] at h
    rw [h, List.range_eq_range']
  · intro j hj
    constructor <;> simp [getDMTrialIdx, hj]

/-- Witness for the dispenser theorem: two trials, four calls. -/
theorem dispenser_fairness_witness :
    runDispenser ⟨2, 0⟩ 4 =
      (List.range 2).map (fun k => (k : Int)) ++ List.replicate 2 (-1) ∧
    (getDMTrialIdx ⟨2, 5⟩).1 = -1 :=
  ⟨(dispenser_fairness 2 4 (by decide)).1,
    ((dispenser_fairness 2 4 (by decide)).2 5 (by decide)).1⟩

/-- Claim C3, counterexample: at tolerance 3/10 the acceleration
distiller relation chains `ca ~ cb ~ cc` on frequencies 4, 5, 6 without
relating `ca` to `cc`, and on that input the whole related set of `ca`
(namely `ca` and `cb`, whose highest-SNR member is `cb`) is discarded:
only `cc`, unrelated to `ca`, is kept.  So the per-class
highest-SNR-representative clause of the claim is false for the
acceleration distiller. -/
theorem accel_distill_drops_related_class :
    accelDistill (3 / 10) chainS = [cc] ∧
    related (accelRel (3 / 10)) chainS ca = [ca, cb] ∧
    accelRel (3 / 10) ca cc = false ∧
    accelRel (3 / 10) cc ca = false ∧
    cb ∉ accelDistill (3 / 10) chainS ∧
    ca ∉ accelDistill (3 / 10) chainS := by
  with_unfolding_all decide

/-- Claim C3, amended: each distiller's output is a sublist selection
of its input: no candidate is invented and the size never grows; every
kept candidate has the highest SNR among the candidates related to it;
and the highest-SNR candidate of the whole input always survives
distillation (given a positive tolerance, and `max_harm ≥ 1` for the
harmonic distiller).  The tolerance relations are not transitive, so
related sets are not equivalence classes and no per-class
representative guarantee holds (see the counterexample). -/
theorem distiller_monotonicity :
    ∀ (R : Candidate → Candidate → Bool) (S : List Candidate),
      distill R S ⊆ S ∧
      (distill R S).length ≤ S.length ∧
      (∀ tol mh full, harmDistill tol mh full S ⊆ S ∧
        (harmDistill tol mh full S).length ≤ S.length) ∧
      (∀ tol, accelDistill tol S ⊆ S ∧
        (accelDistill tol S).length ≤ S.length) ∧
      (∀ tol, dmDistill tol S ⊆ S ∧
        (dmDistill tol S).length ≤ S.length) ∧
      (∀ c ∈ distill R S, ∀ y ∈ related R S c, y.snr ≤ c.snr) ∧
      (∀ m, (∀ a, R a a = true) → firstMax S = some m →
        m ∈ distill R S) ∧
      (∀ tol mh full m, 0 < tol → 1 ≤ mh → firstMax S = some m →
        m ∈ harmDistill tol mh full S) ∧
      (∀ tol m, 0 < tol → firstMax S = some m →
        m ∈ accelDistill tol S) ∧
      (∀ tol m, 0 < tol → firstMax S = some m →
        m ∈ dmDistill tol S) := by
  intro R S
  refine ⟨distill_subset R S, distill_length_le R S,
    fun tol mh full => ⟨distill_subset _ S, distill_length_le _ S⟩,
    fun tol => ⟨distill_subset _ S, distill_length_le _ S⟩,
    fun tol => ⟨distill_subset _ S, distill_length_le _ S⟩,
    distill_kept_best R S, firstMax_mem_distill R S, ?_, ?_, ?_⟩
  · intro tol mh full m htol hmh hfm
    exact firstMax_mem_distill _ S m (harmRel_refl tol mh full htol hmh) hfm
  · intro tol m htol hfm
    exact firstMax_mem_distill _ S m (accelRel_refl tol htol) hfm
  · intro tol m htol hfm
    exact firstMax_mem_distill _ S m (dmRel_refl tol htol) hfm

/-- Witness for the amended distiller theorem, exercised at the actual
acceleration distiller on the concrete chain: the overall best
candidate `cc` survives, and the related candidate `cb` has no higher
SNR than the kept `cc`. -/
theorem distiller_monotonicity_witness :
    cc ∈ accelDistill (3 / 10) chainS ∧ cb.snr ≤ cc.snr :=
  ⟨(distiller_monotonicity (accelRel (3 / 10)) chainS).2.2.2.2.2.2.2.2.1
      (3 / 10) cc (by with_unfolding_all decide)
      (by with_unfolding_all decide),
    (distiller_monotonicity (accelRel (3 / 10)) chainS).2.2.2.2.2.1
      cc (by with_unfolding_all decide) cb (by with_unfolding_all decide)⟩

/-- Claim C4: applying any distiller (in particular the harmonic,
acceleration and DM distillers) twice yields the same collection as
applying it once. -/
theorem distiller_idempotence :
    ∀ (R : Candidate → Candidate → Bool) (S : List Candidate),
      distill R (distill R S) = distill R S ∧
      (∀ tol mh full, harmDistill tol mh full (harmDistill tol mh full S) =
        harmDistill tol mh full S) ∧
      (∀ tol, accelDistill tol (accelDistill tol S) = accelDistill tol S) ∧
      (∀ tol, dmDistill tol (dmDistill tol S) = dmDistill tol S) := by
  intro R S
  exact ⟨distill_idem R S, fun tol mh full => distill_idem _ S,
    fun tol => distill_idem _ S, fun tol => distill_idem _ S⟩

lemma take_append_replicate {α : Type} (l : List α) (n k : Nat) (x : α)
    (h : l.length = n) : (l ++ List.replicate k x).take n = l := by
  rw [← h]
  exact List.take_left _ _

lemma getD_append_replicate {α : Type} (l : List α) (n k i : Nat)
    (x d : α) (hlen : l.length = n) (h1 : n ≤ i) (h2 : i < n + k) :
    (l ++ List.replicate k x).getD i d = x := by
  rw [List.getD_append_right _ _ _ _ (by omega : l.length ≤ i)]
  rw [List.getD_eq_getElem?_getD, List.getElem?_replicate,
    if_pos (by omega : i - l.length < k)]
  rfl

/-- Claim C5: the per-DM statistics are the mean and standard deviation
of the dereddened interpolated power spectrum, a spectrum of `S/2+1`
bins, computed once per DM trial; every acceleration trial's spectrum
is then normalised with the pre-scaled values `mean·S` and `std·S` by
subtract-and-divide. -/
theorem stats_once_prescaled :
    ∀ (e : Env) (tim : List ℚ) (a dm : ℚ) (ii : Nat),
      (interpSpec e tim).length = e.size / 2 + 1 ∧
      dmMean e tim = listMean (formInterpolated (dereddenedSpectrum e tim)) ∧
      dmStd e tim =
        listStd e.sqrtFn (formInterpolated (dereddenedSpectrum e tim)) ∧
      accNormSpec e (cleanSeries e tim) (dmMean e tim) (dmStd e tim) a =
        (accSpec e (cleanSeries e tim) a).map (fun x =>
          (x - dmMean e tim * (e.size : ℚ)) /
            (dmStd e tim * (e.size : ℚ))) ∧
      processDM e dm tim ii = accelDistill e.freqTol
        (((e.accList dm).map (fun b =>
          accStepCands e dm ii (cleanSeries e tim) (dmMean e tim)
            (dmStd e tim) b)).flatten) := by
  intro e tim a dm ii
  exact ⟨interpSpec_length e tim, rfl, rfl, rfl, rfl⟩

/-- Claim C6: the acceleration distiller every worker constructs is
passed `tobs = S·tsamp` (the padded transform length times the sample
interval), which differs from the physical observation length
`nsamps·tsamp` whenever the transform size differs from the sample
count. -/
theorem acc_distiller_tobs :
    ∀ e : Env,
      (workerAccStillArgs e).tobs = (e.size : ℚ) * e.tsamp ∧
      (0 < e.tsamp → e.nsamps ≠ e.size →
        (workerAccStillArgs e).tobs ≠ (e.nsamps : ℚ) * e.tsamp) := by
  intro e
  refine ⟨rfl, ?_⟩
  intro ht hne heq
  have h2 : (e.size : ℚ) * e.tsamp = (e.nsamps : ℚ) * e.tsamp := heq
  have h3 : (e.size : ℚ) = (e.nsamps : ℚ) :=
    mul_right_cancel₀ (ne_of_gt ht) h2
  exact hne (Nat.cast_inj.mp h3).symm

/-- Witness for the observation-time theorem at a concrete padded
environment. -/
theorem acc_distiller_tobs_witness :
    (workerAccStillArgs envPad).tobs ≠ (envPad.nsamps : ℚ) * envPad.tsamp :=
  (acc_distiller_tobs envPad).2 (by with_unfolding_all decide) (by decide)

/-- Claim C7: when the transform size exceeds the sample count, the
worker fills device-buffer indices `[nsamps, size)` with the mean of
the first `nsamps` entries; the first `nsamps` entries are the copied
host samples, and the buffer that the forward FFT receives has length
`size`. -/
theorem padding_fill :
    ∀ (e : Env) (tim : List ℚ), e.nsamps < e.size →
      (∀ i, e.nsamps ≤ i → i < e.size →
        (deviceBuffer e tim).getD i 0 =
          listMean ((deviceBuffer e tim).take e.nsamps)) ∧
      (deviceBuffer e tim).take e.nsamps =
        ((List.range e.size).map (fun j => tim.getD j 0)).take e.nsamps ∧
      (deviceBuffer e tim).length = e.size := by
  intro e tim hpad
  have hb0len :
      ((List.range e.size).map (fun j => tim.getD j 0)).length = e.size := by
    simp
  have htlen :
      (((List.range e.size).map (fun j => tim.getD j 0)).take
        e.nsamps).length = e.nsamps := by
    rw [List.length_take, hb0len]
    exact min_eq_left (le_of_lt hpad)
  have hdb : deviceBuffer e tim =
      ((List.range e.size).map (fun j => tim.getD j 0)).take e.nsamps ++
        List.replicate (e.size - e.nsamps)
          (listMean (((List.range e.size).map
            (fun j => tim.getD j 0)).take e.nsamps)) := by
    simp only [deviceBuffer]
    rw [if_pos hpad]
  refine ⟨?_, ?_, ?_⟩
  · intro i hi1 hi2
    rw [hdb,
      getD_append_replicate _ _ _ _ _ _ htlen hi1 (by omega),
      take_append_replicate _ _ _ _ htlen]
  · rw [hdb, take_append_replicate _ _ _ _ htlen]
  · rw [hdb, List.length_append, htlen, List.length_replicate]
    omega

/-- Witness for the padding theorem: size 4, two samples, padded bins
hold the mean of the first two. -/
theorem padding_fill_witness :
    (deviceBuffer envPad [1, 3]).getD 2 0 =
      listMean ((deviceBuffer envPad [1, 3]).take envPad.nsamps) :=
  (padding_fill envPad [1, 3] (by decide)).1 2 (by decide) (by decide)

/-- Claim C8: a configured size of 0 selects the previous power of two
of the sample count (a power of two that is at most `nsamps` while its
double exceeds `nsamps`), and any nonzero configured size is used as
given. -/
theorem transform_size :
    ∀ n : Nat, 0 < n →
      chooseSize 0 n = prevPowerOfTwo n ∧
      prevPowerOfTwo n = 2 ^ Nat.log 2 n ∧
      prevPowerOfTwo n ≤ n ∧
      n < 2 * prevPowerOfTwo n ∧
      ∀ s, s ≠ 0 → chooseSize s n = s := by
  intro n hn
  refine ⟨rfl, rfl, Nat.pow_log_le_self 2 (Nat.pos_iff_ne_zero.mp hn),
    ?_, ?_⟩
  · have h := Nat.lt_pow_succ_log_self (by norm_num : (1 : ℕ) < 2) n
    rw [pow_succ, Nat.mul_comm] at h
    exact h
  · intro s hs
    simp [chooseSize, hs]

/-- Witness for the transform-size theorem at five samples. -/
theorem transform_size_witness :
    prevPowerOfTwo 5 ≤ 5 ∧ 5 < 2 * prevPowerOfTwo 5 ∧
      chooseSize 7 5 = 7 :=
  ⟨(transform_size 5 (by decide)).2.2.1,
    (transform_size 5 (by decide)).2.2.2.1,
    (transform_size 5 (by decide)).2.2.2.2 7 (by decide)⟩

/-- Claim C9: every candidate produced while processing DM trial `ii`
at acceleration `a` carries `dm_trial_idx = ii`, the trial DM and the
trial acceleration, and therefore every candidate in the aggregate,
distilled collection satisfies `dm = trials[dm_trial_idx].dm`. -/
theorem candidate_tagging :
    (∀ (e : Env) (dm : ℚ) (ii : Nat) (clean : List ℚ) (mu sigma a : ℚ),
      ∀ c ∈ accStepCands e dm ii clean mu sigma a,
        c.dm = dm ∧ c.dmTrialIdx = ii ∧ c.acc = a) ∧
    (∀ (e : Env) (trials : List (ℚ × List ℚ)),
      ∀ c ∈ runPipeline e trials,
        c.dm = (trials.getD c.dmTrialIdx (0, [])).1) := by
  constructor
  · intro e dm ii clean mu sigma a c hc
    exact accStepCands_tags c hc
  · intro e trials c hc
    have h1 : c ∈ ((List.range trials.length).map (fun ii =>
        processDM e (trials.getD ii (0, [])).1 (trials.getD ii (0, [])).2
          ii)).flatten :=
      distill_subset _ _ (distill_subset _ _ hc)
    obtain ⟨l, hl, hcl⟩ := List.mem_flatten.mp h1
    obtain ⟨ii, _, rfl⟩ := List.mem_map.mp hl
    obtain ⟨hdm, hidx⟩ := processDM_tags c hcl
    rw [hidx]
    exact hdm

/-- Witness for the tagging theorem: the candidate the concrete
pipeline finds satisfies the DM invariant. -/
theorem candidate_tagging_witness :
    candA.dm = (trialsA.getD candA.dmTrialIdx (0, [])).1 :=
  candidate_tagging.2 envA trialsA candA (by with_unfolding_all decide)

/-- Claim C10: the `bzap` pointer is initialised, dereferenced and
deleted only under the one guard that the zap-file name is nonempty: a
run with an empty zap file performs no pointer event at all and leaves
the spectrum untouched by the zapper, and a run with a zap file
initialises the pointer before every use and deletes it once at the
end. -/
theorem zap_guard :
    ∀ (n : Nat) (e : Env) (tim : List ℚ),
      zapEvents true n = [] ∧
      zapEvents false n =
        ZapEvent.init ::
          (List.replicate n ZapEvent.deref ++ [ZapEvent.del]) ∧
      (e.zapEmpty = true →
        dereddenedSpectrum e tim = dereddenOnly e tim) := by
  intro n e tim
  refine ⟨?_, ?_, ?_⟩
  · simp [zapEvents, flatten_replicate_nil]
  · simp [zapEvents, flatten_replicate_single]
  · intro h
    simp [dereddenedSpectrum, h]

/-- Witness for the zap-guard theorem: an empty zap file produces no
pointer events, and the (spectrum-corrupting) zapper of `envZap` is
never applied. -/
theorem zap_guard_witness :
    zapEvents true 3 = [] ∧
    dereddenedSpectrum envZap [1, 2] = dereddenOnly envZap [1, 2] :=
  ⟨(zap_guard 3 envZap [1, 2]).1, (zap_guard 3 envZap [1, 2]).2.2 rfl⟩
